import Mathlib

/-!
A shallow embedding of the VulnMCP dispatcher core: the scoring / progress
subsystem (`src/challenges/scoring/manager.py`), the tool registry and
resource ownership map (`src/server.py`), and the hint lookup
(`src/challenges/base.py`, `src/server.py`).  Python integers are modelled
as `Int` (scores) or `Nat` (counters, ids); Python dictionaries keyed by
challenge id are modelled as association lists with first-match lookup and
in-place overwrite; timestamps carry no information relevant to any
property and are modelled as `Option Unit` (absent versus present).
-/

namespace VulnMCP

/-- Mirrors the `ChallengeProgress` dataclass of `manager.py`. -/
structure ChallengeProgress where
  challenge_id : Nat
  completed : Bool
  score : Int
  attempts : Nat
  hints_used : Nat
  time_started : Option Unit
  time_completed : Option Unit
  best_score : Int
deriving Repr, DecidableEq

/-- Mirrors the `UserProgress` dataclass of `manager.py`.  The
`challenge_progress` dict is an association list from challenge id to
`ChallengeProgress`. -/
structure UserProgress where
  username : String
  total_score : Int
  challenges_completed : Nat
  total_attempts : Nat
  badges : List String
  challenge_progress : List (Nat × ChallengeProgress)
  started_at : Option Unit
  last_activity : Option Unit
deriving Repr, DecidableEq

/-- Python dict lookup `m[k]` / `k in m` on the progress mapping. -/
def dictGet (m : List (Nat × ChallengeProgress)) (k : Nat) : Option ChallengeProgress :=
  match m with
  | [] => none
  | (k1, v) :: es => if k1 = k then some v else dictGet es k

/-- Python dict assignment `m[k] = v`: overwrite in place when the key is
present, append otherwise. -/
def dictSet (m : List (Nat × ChallengeProgress)) (k : Nat) (v : ChallengeProgress) :
    List (Nat × ChallengeProgress) :=
  match m with
  | [] => [(k, v)]
  | (k1, v1) :: es => if k1 = k then (k1, v) :: es else (k1, v1) :: dictSet es k v

/-- The fresh zeroed record built by `load_progress` when no progress file
exists for the user. -/
def freshProgress (username : String) : UserProgress :=
  { username := username
    total_score := 0
    challenges_completed := 0
    total_attempts := 0
    badges := []
    challenge_progress := []
    started_at := some ()
    last_activity := some () }

/-- State of the durable progress file of one user, as seen by
`load_progress`: absent, present but unreadable or corrupt, or valid. -/
inductive FileState where
  | missing
  | corrupt
  | valid (p : UserProgress)
deriving Repr, DecidableEq

/-- Mirrors `ScoreManager.load_progress`.  The first argument is the
available call-stack depth: the Python implementation handles a corrupt
file by calling itself recursively with the file unchanged
(`return self.load_progress(username)`), so the recursion only ends when
the interpreter runs out of stack; `none` models that `RecursionError`. -/
def loadProgress : Nat → String → FileState → Option UserProgress
  | 0, _, _ => none
  | _ + 1, username, .missing => some (freshProgress username)
  | _ + 1, _, .valid p => some p
  | fuel + 1, username, .corrupt => loadProgress fuel username .corrupt

/-- The zeroed per-challenge entry created by `start_challenge`. -/
def freshEntry (cid : Nat) : ChallengeProgress :=
  { challenge_id := cid
    completed := false
    score := 0
    attempts := 0
    hints_used := 0
    time_started := some ()
    time_completed := none
    best_score := 0 }

/-- Mirrors `ScoreManager.start_challenge`: create a zeroed per-challenge
entry when absent, then touch `last_activity` and save. -/
def startChallenge (st : UserProgress) (cid : Nat) : UserProgress :=
  let st1 :=
    if (dictGet st.challenge_progress cid).isSome then st
    else
      { st with challenge_progress := dictSet st.challenge_progress cid (freshEntry cid) }
  { st1 with last_activity := some () }

/-- Mirrors `ScoreManager.record_attempt`. -/
def recordAttempt (st : UserProgress) (cid : Nat) : UserProgress :=
  let st1 :=
    match dictGet st.challenge_progress cid with
    | some cp =>
        { st with
          challenge_progress :=
            dictSet st.challenge_progress cid { cp with attempts := cp.attempts + 1 }
          total_attempts := st.total_attempts + 1 }
    | none => st
  { st1 with last_activity := some () }

/-- Mirrors `ScoreManager.use_hint` (the hint level only appears in the
returned message, not in the state update). -/
def useHint (st : UserProgress) (cid : Nat) : UserProgress :=
  let st1 :=
    match dictGet st.challenge_progress cid with
    | some cp =>
        { st with
          challenge_progress :=
            dictSet st.challenge_progress cid { cp with hints_used := cp.hints_used + 1 } }
    | none => st
  { st1 with last_activity := some () }

/-- The dictionary returned by `ScoreManager.complete_challenge`. -/
structure CompleteResult where
  score : Int
  total_score : Int
  new_badges : List String
  challenges_completed : Nat
deriving Repr, DecidableEq

/-- Mirrors `ScoreManager._check_badges`: derive the badges newly earned by
the given record, in the fixed evaluation order of the source. -/
def checkBadges (p : UserProgress) : List String :=
  let cps := p.challenge_progress.map Prod.snd
  (if p.challenges_completed = 1 ∧ "first_blood" ∉ p.badges then ["first_blood"] else [])
  ++ (if (∀ cp ∈ cps, cp.completed = true → cp.hints_used = 0) ∧
        3 ≤ p.challenges_completed ∧ "no_hints_hero" ∉ p.badges
      then ["no_hints_hero"] else [])
  ++ (if (∃ cp ∈ cps, cp.completed = true ∧ cp.attempts ≤ 5) ∧ "speed_demon" ∉ p.badges
      then ["speed_demon"] else [])
  ++ (if 4 ≤ p.challenges_completed ∧ "halfway" ∉ p.badges then ["halfway"] else [])
  ++ (if p.challenges_completed = 8 ∧ "champion" ∉ p.badges then ["champion"] else [])
  ++ (if (∀ cp ∈ cps, cp.completed = true → cp.score = cp.best_score) ∧
        5 ≤ p.challenges_completed ∧ "perfect_score" ∉ p.badges
      then ["perfect_score"] else [])

/-- Mirrors `ScoreManager.complete_challenge`.  The result component is
`none` when the call raises: when the challenge id has no entry yet, the
source calls `start_challenge`, which loads the record from disk again,
adds the entry there and saves it, leaving the local in-memory record
unchanged; the subsequent dict indexing then raises `KeyError`.  The state
component is the durable record after the call (for the raising path, the
one persisted by the nested `start_challenge`). -/
def completeChallenge (st : UserProgress) (cid : Nat) (score : Int) :
    Option CompleteResult × UserProgress :=
  match dictGet st.challenge_progress cid with
  | none => (none, startChallenge st cid)
  | some cprog =>
      let updated :=
        if cprog.completed = false ∨ cprog.best_score < score then
          { st with
            challenges_completed :=
              if cprog.completed then st.challenges_completed else st.challenges_completed + 1
            challenge_progress :=
              dictSet st.challenge_progress cid
                { cprog with
                  completed := true
                  time_completed :=
                    if cprog.completed then cprog.time_completed else some ()
                  score := score
                  best_score := max cprog.best_score score }
            total_score := st.total_score + (score - cprog.score) }
        else st
      let new_badges := checkBadges updated
      let final :=
        { updated with
          badges := (updated.badges ++ new_badges).dedup
          last_activity := some () }
      (some
        { score := score
          total_score := updated.total_score
          new_badges := new_badges
          challenges_completed := updated.challenges_completed },
       final)

/-- Progress state after `start_challenge("player", 3)` from no prior progress. -/
def scenarioStart : UserProgress := startChallenge (freshProgress "player") 3

/-- First completion of unit 3 with score 200 in the example scenario. -/
def scenarioFirst : Option CompleteResult × UserProgress := completeChallenge scenarioStart 3 200

/-- Second completion of unit 3 with score 150 in the example scenario. -/
def scenarioSecond : Option CompleteResult × UserProgress := completeChallenge scenarioFirst.2 3 150

/-- C1 counterexample: with no prior progress at all, `complete_challenge`
for unit 3 with score 200 does not return the claimed result dictionary; it
raises `KeyError` (result component `none`), because the nested
`start_challenge` only persists the new entry to disk while the in-memory
record that is indexed next still lacks it. -/
theorem completeChallenge_fresh_user_raises :
    (completeChallenge (freshProgress "player") 3 200).1 = none := by decide

/-- C1 amended: once unit 3 has been started, the first completion with
score 200 returns score 200, total 200, new badges `first_blood` and
`speed_demon` (zero attempts), and one completed challenge; the second
completion with score 150 returns score 150, total 200, no new badges, one
completed challenge, while the stored entry keeps best score 200 and
current score 200 (the lower resubmission does not touch the stored
current score). -/
theorem complete_unit_scenario_amended :
    scenarioFirst.1 =
      some { score := 200, total_score := 200
             new_badges := ["first_blood", "speed_demon"], challenges_completed := 1 } ∧
    scenarioSecond.1 =
      some { score := 150, total_score := 200
             new_badges := [], challenges_completed := 1 } ∧
    (dictGet scenarioSecond.2.challenge_progress 3).map ChallengeProgress.best_score =
      some 200 ∧
    (dictGet scenarioSecond.2.challenge_progress 3).map ChallengeProgress.score = some 200 ∧
    scenarioSecond.2.total_score = 200 := by decide

/-- C2: on a corrupt or unreadable progress file, `load_progress` never
returns a record at all: its exception handler calls `load_progress` again
with the file state unchanged, so for every available stack depth the call
recurses to exhaustion (`RecursionError`) instead of producing the fresh
zeroed record the spec requires. -/
theorem loadProgress_corrupt_diverges (fuel : Nat) (username : String) :
    loadProgress fuel username .corrupt = none := by
  induction fuel with
  | zero => rfl
  | succ n ih => exact ih

theorem dictGet_dictSet_self (m : List (Nat × ChallengeProgress)) (k : Nat)
    (v : ChallengeProgress) : dictGet (dictSet m k v) k = some v := by
  induction m with
  | nil => simp [dictGet, dictSet]
  | cons e es ih =>
      obtain ⟨k1, v1⟩ := e
      by_cases h : k1 = k <;> simp [dictGet, dictSet, h, ih]

theorem dictGet_dictSet_ne (m : List (Nat × ChallengeProgress)) (k k2 : Nat)
    (v : ChallengeProgress) (h : k2 ≠ k) : dictGet (dictSet m k v) k2 = dictGet m k2 := by
  induction m with
  | nil => simp [dictGet, dictSet, Ne.symm h]
  | cons e es ih =>
      obtain ⟨k1, v1⟩ := e
      by_cases h1 : k1 = k <;> by_cases h2 : k1 = k2 <;>
        simp_all [dictGet, dictSet]

/-- Shape of `complete_challenge` when the update branch is taken
(`not cprog.completed or score > cprog.best_score`). -/
theorem completeChallenge_branch (st : UserProgress) (cid : Nat) (cp : ChallengeProgress)
    (s : Int) (hcp : dictGet st.challenge_progress cid = some cp)
    (hcond : cp.completed = false ∨ cp.best_score < s) :
    (completeChallenge st cid s).1.isSome = true ∧
    (completeChallenge st cid s).2.total_score = st.total_score + (s - cp.score) ∧
    (completeChallenge st cid s).2.challenge_progress =
      dictSet st.challenge_progress cid
        { cp with
          completed := true
          time_completed := if cp.completed then cp.time_completed else some ()
          score := s
          best_score := max cp.best_score s } ∧
    (completeChallenge st cid s).2.challenges_completed =
      if cp.completed then st.challenges_completed else st.challenges_completed + 1 := by
  simp only [completeChallenge, hcp, if_pos hcond]
  simp

/-- Shape of `complete_challenge` when the update branch is skipped: the
entry is already completed with a best score at least the submission. -/
theorem completeChallenge_nobranch (st : UserProgress) (cid : Nat) (cp : ChallengeProgress)
    (s : Int) (hcp : dictGet st.challenge_progress cid = some cp)
    (hc : cp.completed = true) (hs : s ≤ cp.best_score) :
    (completeChallenge st cid s).1.isSome = true ∧
    (completeChallenge st cid s).2.total_score = st.total_score ∧
    (completeChallenge st cid s).2.challenge_progress = st.challenge_progress ∧
    (completeChallenge st cid s).2.challenges_completed = st.challenges_completed := by
  have hcond : ¬(cp.completed = false ∨ cp.best_score < s) := by
    push_neg
    exact ⟨by simp [hc], hs⟩
  simp only [completeChallenge, hcp, if_neg hcond]
  simp

/-- C6: from any entry whose previous best score is at most `s1`,
completing with `s1` and then with any `s2 ≤ s1` leaves the best score of
the unit at `s1`, and the second call does not change the total score. -/
theorem complete_lower_score_noop (st : UserProgress) (cid : Nat) (cp : ChallengeProgress)
    (s1 s2 : Int) (hcp : dictGet st.challenge_progress cid = some cp)
    (hb : cp.best_score ≤ s1) (h21 : s2 ≤ s1) :
    (completeChallenge st cid s1).1.isSome = true ∧
    (completeChallenge (completeChallenge st cid s1).2 cid s2).1.isSome = true ∧
    (dictGet (completeChallenge (completeChallenge st cid s1).2 cid s2).2.challenge_progress
        cid).map ChallengeProgress.best_score = some s1 ∧
    (completeChallenge (completeChallenge st cid s1).2 cid s2).2.total_score =
      (completeChallenge st cid s1).2.total_score := by
  have hstep : (completeChallenge st cid s1).1.isSome = true ∧
      ∃ cp1, dictGet (completeChallenge st cid s1).2.challenge_progress cid = some cp1 ∧
        cp1.completed = true ∧ cp1.best_score = s1 := by
    by_cases hcond : cp.completed = false ∨ cp.best_score < s1
    · obtain ⟨h1, _, h3, _⟩ := completeChallenge_branch st cid cp s1 hcp hcond
      refine ⟨h1, { cp with
          completed := true
          time_completed := if cp.completed then cp.time_completed else some ()
          score := s1
          best_score := max cp.best_score s1 }, ?_, rfl, max_eq_right hb⟩
      rw [h3]
      exact dictGet_dictSet_self _ _ _
    · push_neg at hcond
      have hc : cp.completed = true := by
        cases hcpl : cp.completed
        · exact absurd hcpl hcond.1
        · rfl
      have hbe : cp.best_score = s1 := le_antisymm hb hcond.2
      obtain ⟨h1, _, h3, _⟩ := completeChallenge_nobranch st cid cp s1 hcp hc hcond.2
      exact ⟨h1, cp, by rw [h3, hcp], hc, hbe⟩
  obtain ⟨h1, cp1, hcp1, hc1, hb1⟩ := hstep
  have hs2 : s2 ≤ cp1.best_score := hb1 ▸ h21
  obtain ⟨h21s, h2t, h2p, _⟩ :=
    completeChallenge_nobranch (completeChallenge st cid s1).2 cid cp1 s2 hcp1 hc1 hs2
  refine ⟨h1, h21s, ?_, h2t⟩
  rw [h2p, hcp1]
  simp [hb1]

/-- C7: completing an already-completed unit with a score strictly above
the stored best increases the total score by exactly the difference
between the new score and the stored current score. -/
theorem complete_higher_score_delta (st : UserProgress) (cid : Nat) (cp : ChallengeProgress)
    (s : Int) (hcp : dictGet st.challenge_progress cid = some cp)
    (_hc : cp.completed = true) (hs : cp.best_score < s) :
    (completeChallenge st cid s).1.isSome = true ∧
    (completeChallenge st cid s).2.total_score = st.total_score + (s - cp.score) := by
  obtain ⟨h1, h2, _, _⟩ := completeChallenge_branch st cid cp s hcp (Or.inr hs)
  exact ⟨h1, h2⟩

/-- Witness for C6 at a concrete state: unit 3 started, scores 80 then 60. -/
theorem complete_lower_score_noop_witness :
    (completeChallenge scenarioStart 3 80).1.isSome = true ∧
    (completeChallenge (completeChallenge scenarioStart 3 80).2 3 60).1.isSome = true ∧
    (dictGet (completeChallenge (completeChallenge scenarioStart 3 80).2 3 60).2.challenge_progress
        3).map ChallengeProgress.best_score = some 80 ∧
    (completeChallenge (completeChallenge scenarioStart 3 80).2 3 60).2.total_score =
      (completeChallenge scenarioStart 3 80).2.total_score :=
  complete_lower_score_noop scenarioStart 3 (freshEntry 3) 80 60 (by decide) (by decide)
    (by decide)

/-- Witness for C7 at a concrete state: unit 3 completed at 200, then 250. -/
theorem complete_higher_score_delta_witness :
    (completeChallenge scenarioFirst.2 3 250).1.isSome = true ∧
    (completeChallenge scenarioFirst.2 3 250).2.total_score =
      scenarioFirst.2.total_score + (250 - 200) :=
  complete_higher_score_delta scenarioFirst.2 3
    { challenge_id := 3, completed := true, score := 200, attempts := 0, hints_used := 0
      time_started := some (), time_completed := some (), best_score := 200 }
    250 (by decide) (by decide) (by decide)

/-- Contribution of one progress entry to the completed-score sum. -/
def entryScore (e : Nat × ChallengeProgress) : Int :=
  if e.2.completed = true then e.2.score else 0

/-- Sum of current scores over completed entries of the progress mapping. -/
def completedSum : List (Nat × ChallengeProgress) → Int
  | [] => 0
  | e :: es => entryScore e + completedSum es

theorem completedSum_eq_filter_sum (m : List (Nat × ChallengeProgress)) :
    completedSum m = ((m.filter fun e => e.2.completed).map fun e => e.2.score).sum := by
  induction m with
  | nil => rfl
  | cons e es ih =>
      cases hc : e.2.completed <;>
        simp [completedSum, entryScore, List.filter_cons, hc, ih]

theorem dictGet_mem (m : List (Nat × ChallengeProgress)) (k : Nat) (cp : ChallengeProgress)
    (h : dictGet m k = some cp) : (k, cp) ∈ m := by
  induction m with
  | nil => simp [dictGet] at h
  | cons e es ih =>
      obtain ⟨k1, v1⟩ := e
      by_cases hk : k1 = k
      · subst hk
        simp [dictGet] at h
        simp [h]
      · simp only [dictGet, if_neg hk] at h
        exact List.mem_cons_of_mem _ (ih h)

theorem mem_dictSet (m : List (Nat × ChallengeProgress)) (k : Nat) (v : ChallengeProgress)
    (e : Nat × ChallengeProgress) (he : e ∈ dictSet m k v) : e ∈ m ∨ e = (k, v) := by
  induction m with
  | nil => simp [dictSet] at he; simp [he]
  | cons e1 es ih =>
      obtain ⟨k1, v1⟩ := e1
      by_cases hk : k1 = k
      · simp only [dictSet, if_pos hk] at he
        rcases List.mem_cons.mp he with h1 | h1
        · right; rw [h1, hk]
        · left; exact List.mem_cons_of_mem _ h1
      · simp only [dictSet, if_neg hk] at he
        rcases List.mem_cons.mp he with h1 | h1
        · left; simp [h1]
        · rcases ih h1 with h2 | h2
          · left; exact List.mem_cons_of_mem _ h2
          · right; exact h2

theorem completedSum_dictSet_present (m : List (Nat × ChallengeProgress)) (k : Nat)
    (v cp : ChallengeProgress) (h : dictGet m k = some cp) :
    completedSum (dictSet m k v) = completedSum m - entryScore (k, cp) + entryScore (k, v) := by
  induction m with
  | nil => simp [dictGet] at h
  | cons e es ih =>
      obtain ⟨k1, v1⟩ := e
      by_cases hk : k1 = k
      · subst hk
        simp [dictGet] at h
        subst h
        simp only [dictSet, if_pos rfl, completedSum]
        ring
      · simp only [dictGet, if_neg hk] at h
        simp only [dictSet, if_neg hk, completedSum, ih h]
        ring

theorem completedSum_dictSet_absent (m : List (Nat × ChallengeProgress)) (k : Nat)
    (v : ChallengeProgress) (h : dictGet m k = none) :
    completedSum (dictSet m k v) = completedSum m + entryScore (k, v) := by
  induction m with
  | nil => simp [dictSet, completedSum]
  | cons e es ih =>
      obtain ⟨k1, v1⟩ := e
      by_cases hk : k1 = k
      · simp [dictGet, hk] at h
      · simp only [dictGet, if_neg hk] at h
        simp only [dictSet, if_neg hk, completedSum, ih h]
        ring

/-- The state invariant maintained by every scoring operation: each entry
keeps current score equal to best score (zero while not completed), and
the total score is the sum of scores over completed entries. -/
def ScoreInv (st : UserProgress) : Prop :=
  (∀ e ∈ st.challenge_progress,
      e.2.score = e.2.best_score ∧ (e.2.completed = false → e.2.score = 0)) ∧
  st.total_score = completedSum st.challenge_progress

theorem scoreInv_start (st : UserProgress) (cid : Nat) (h : ScoreInv st) :
    ScoreInv (startChallenge st cid) := by
  obtain ⟨hent, htot⟩ := h
  unfold startChallenge
  by_cases hd : (dictGet st.challenge_progress cid).isSome
  · simp only [if_pos hd]
    exact ⟨hent, htot⟩
  · have habs : dictGet st.challenge_progress cid = none :=
      Option.not_isSome_iff_eq_none.mp hd
    simp only [if_neg hd]
    constructor
    · intro e he
      rcases mem_dictSet _ _ _ _ he with h1 | h1
      · exact hent e h1
      · simp [h1, freshEntry]
    · show st.total_score = completedSum (dictSet st.challenge_progress cid (freshEntry cid))
      rw [completedSum_dictSet_absent _ _ _ habs]
      simp [entryScore, freshEntry, htot]

theorem scoreInv_attempt (st : UserProgress) (cid : Nat) (h : ScoreInv st) :
    ScoreInv (recordAttempt st cid) := by
  obtain ⟨hent, htot⟩ := h
  unfold recordAttempt
  cases hd : dictGet st.challenge_progress cid
  · exact ⟨hent, htot⟩
  · rename_i cp
    constructor
    · intro e he
      rcases mem_dictSet _ _ _ _ he with h1 | h1
      · exact hent e h1
      · have := hent (cid, cp) (dictGet_mem _ _ _ hd)
        simpa [h1] using this
    · simp only [completedSum_dictSet_present _ _ _ _ hd]
      simp [entryScore, htot]

theorem scoreInv_hint (st : UserProgress) (cid : Nat) (h : ScoreInv st) :
    ScoreInv (useHint st cid) := by
  obtain ⟨hent, htot⟩ := h
  unfold useHint
  cases hd : dictGet st.challenge_progress cid
  · exact ⟨hent, htot⟩
  · rename_i cp
    constructor
    · intro e he
      rcases mem_dictSet _ _ _ _ he with h1 | h1
      · exact hent e h1
      · have := hent (cid, cp) (dictGet_mem _ _ _ hd)
        simpa [h1] using this
    · simp only [completedSum_dictSet_present _ _ _ _ hd]
      simp [entryScore, htot]

theorem scoreInv_complete (st : UserProgress) (cid : Nat) (s : Int)
    (r : CompleteResult) (st1 : UserProgress) (h : ScoreInv st) (hs : 0 ≤ s)
    (hc : completeChallenge st cid s = (some r, st1)) : ScoreInv st1 := by
  obtain ⟨hent, htot⟩ := h
  have hst1 : st1 = (completeChallenge st cid s).2 := by rw [hc]
  rcases hd : dictGet st.challenge_progress cid with _ | cp
  · have hnone : (completeChallenge st cid s).1 = none := by
      simp [completeChallenge, hd]
    rw [hc] at hnone
    cases hnone
  · have hmem : cp.score = cp.best_score ∧ (cp.completed = false → cp.score = 0) :=
      hent (cid, cp) (dictGet_mem _ _ _ hd)
    by_cases hcond : cp.completed = false ∨ cp.best_score < s
    · obtain ⟨_, ht, hp, _⟩ := completeChallenge_branch st cid cp s hd hcond
      have hble : cp.best_score ≤ s := by
        rcases hcond with h1 | h1
        · have h2 := hmem.2 h1
          have h3 := hmem.1
          omega
        · omega
      constructor
      · intro e he
        rw [hst1, hp] at he
        rcases mem_dictSet _ _ _ _ he with h1 | h1
        · exact hent e h1
        · simp [h1, max_eq_right hble]
      · rw [hst1, hp, ht, completedSum_dictSet_present _ _ _ _ hd, htot]
        cases hcpl : cp.completed
        · have h2 : cp.score = 0 := hmem.2 hcpl
          simp [entryScore, hcpl, h2]
        · simp [entryScore, hcpl]
          ring
    · push_neg at hcond
      have hcpl : cp.completed = true := by
        cases h1 : cp.completed
        · exact absurd h1 hcond.1
        · rfl
      obtain ⟨_, ht, hp, _⟩ := completeChallenge_nobranch st cid cp s hd hcpl hcond.2
      constructor
      · intro e he
        rw [hst1, hp] at he
        exact hent e he
      · rw [hst1, hp, ht]
        exact htot

/-- One scoring operation of the Progress Store, as invoked through the
dispatcher: start a unit, record an attempt, use a hint, or complete a
unit with a score. -/
inductive ScoreOp where
  | start (cid : Nat)
  | attempt (cid : Nat)
  | hint (cid : Nat)
  | complete (cid : Nat) (score : Int)
deriving Repr, DecidableEq

/-- An operation has a nonnegative score (trivially true for the
score-free operations). -/
def ScoreOp.scoreOk : ScoreOp → Bool
  | .complete _ s => decide (0 ≤ s)
  | _ => true

/-- Run a sequence of scoring operations; `none` when a completion raises
(`complete_challenge` on a unit that has no entry in the loaded record). -/
def runOps : UserProgress → List ScoreOp → Option UserProgress
  | st, [] => some st
  | st, .start cid :: ops => runOps (startChallenge st cid) ops
  | st, .attempt cid :: ops => runOps (recordAttempt st cid) ops
  | st, .hint cid :: ops => runOps (useHint st cid) ops
  | st, .complete cid s :: ops =>
      match completeChallenge st cid s with
      | (some _, st1) => runOps st1 ops
      | (none, _) => none

theorem runOps_scoreInv (ops : List ScoreOp) (st st1 : UserProgress) (h : ScoreInv st)
    (hs : ∀ op ∈ ops, op.scoreOk = true) (hr : runOps st ops = some st1) : ScoreInv st1 := by
  induction ops generalizing st with
  | nil => cases hr; exact h
  | cons op ops ih =>
      have hs1 : ∀ op1 ∈ ops, op1.scoreOk = true := fun op1 h1 => hs op1 (List.mem_cons_of_mem _ h1)
      cases op with
      | start cid => exact ih (startChallenge st cid) (scoreInv_start st cid h) hs1 hr
      | attempt cid => exact ih (recordAttempt st cid) (scoreInv_attempt st cid h) hs1 hr
      | hint cid => exact ih (useHint st cid) (scoreInv_hint st cid h) hs1 hr
      | complete cid s =>
          have hok : (0 : Int) ≤ s := by
            have := hs (.complete cid s) (List.mem_cons_self _ _)
            simpa [ScoreOp.scoreOk] using this
          rcases hcc : completeChallenge st cid s with ⟨ores, st2⟩
          cases ores with
          | none => rw [runOps, hcc] at hr; cases hr
          | some r =>
              rw [runOps, hcc] at hr
              exact ih st2 (scoreInv_complete st cid s r st2 h hok hcc) hs1 hr

/-- C9: after any successful sequence of scoring operations with
nonnegative completion scores, every entry has current score equal to best
score, and the total score equals the sum over completed entries of the
current scores, equivalently of the best scores; the stored current score
therefore never differs from the best score. -/
theorem score_equals_best_invariant (username : String) (ops : List ScoreOp)
    (st : UserProgress) (hs : ∀ op ∈ ops, op.scoreOk = true)
    (hr : runOps (freshProgress username) ops = some st) :
    (∀ e ∈ st.challenge_progress, e.2.score = e.2.best_score) ∧
    st.total_score =
      ((st.challenge_progress.filter fun e => e.2.completed).map fun e => e.2.score).sum ∧
    st.total_score =
      ((st.challenge_progress.filter fun e => e.2.completed).map fun e => e.2.best_score).sum := by
  have hfresh : ScoreInv (freshProgress username) := by
    constructor
    · intro e he; simp [freshProgress] at he
    · rfl
  obtain ⟨hent, htot⟩ := runOps_scoreInv ops _ st hfresh hs hr
  have hscore : ∀ e ∈ st.challenge_progress, e.2.score = e.2.best_score :=
    fun e he => (hent e he).1
  refine ⟨hscore, ?_, ?_⟩
  · rw [htot, completedSum_eq_filter_sum]
  · rw [htot, completedSum_eq_filter_sum]
    apply congrArg
    apply List.map_congr_left
    intro e he
    exact hscore e (List.mem_of_mem_filter he)

/-- A concrete run for the invariant witness: start unit 3, one attempt,
complete with score 100. -/
def witnessRunState : UserProgress :=
  { username := "player"
    total_score := 100
    challenges_completed := 1
    total_attempts := 1
    badges := ["first_blood", "speed_demon"]
    challenge_progress :=
      [(3, { challenge_id := 3, completed := true, score := 100, attempts := 1
             hints_used := 0, time_started := some (), time_completed := some ()
             best_score := 100 })]
    started_at := some ()
    last_activity := some () }

/-- Witness for C9 on the concrete run start, attempt, complete(100). -/
theorem score_equals_best_invariant_witness :
    (∀ e ∈ witnessRunState.challenge_progress, e.2.score = e.2.best_score) ∧
    witnessRunState.total_score =
      ((witnessRunState.challenge_progress.filter fun e => e.2.completed).map
        fun e => e.2.score).sum ∧
    witnessRunState.total_score =
      ((witnessRunState.challenge_progress.filter fun e => e.2.completed).map
        fun e => e.2.best_score).sum :=
  score_equals_best_invariant "player"
    [ScoreOp.start 3, ScoreOp.attempt 3, ScoreOp.complete 3 100] witnessRunState
    (by decide) (by decide)

/-- A plugin as seen by the registry build of `_build_tool_registry`: its
unit id together with the bare names of its declared operations in
declaration order. -/
abbrev Plugin := Nat × List String

/-- All (unit id, bare name) pairs over all plugins, in the iteration
order of the tool-gathering loop. -/
def allOps (plugins : List Plugin) : List (Nat × String) :=
  plugins.flatMap fun p => p.2.map fun n => (p.1, n)

/-- The global counter `name_counts` for one bare name: the number of
declared operations carrying that name across all plugins. -/
def nameCount (plugins : List Plugin) (name : String) : Nat :=
  (allOps plugins).countP fun o => o.2 == name

/-- The namespaced tool name, mirroring the f-string `lvl{cid}__{name}`. -/
def nsName (cid : Nat) (name : String) : String :=
  "lvl" ++ Nat.repr cid ++ "__" ++ name

/-- One dict assignment of the `_tool_registry` build loop. -/
def regStep (m : String → Option (Nat × String)) (o : Nat × String) :
    String → Option (Nat × String) :=
  fun q => if q = nsName o.1 o.2 then some o else m q

/-- The dict `_tool_registry` as a lookup function: assignments are
performed in iteration order, later ones overwriting earlier ones. -/
def toolRegistry (plugins : List Plugin) : String → Option (Nat × String) :=
  (allOps plugins).foldl regStep (fun _ => none)

/-- One conditional dict assignment of the `_unique_tool_registry` build
loop, parametrised by the global name counter. -/
def uniqStep (cnt : String → Nat) (m : String → Option (Nat × String)) (o : Nat × String) :
    String → Option (Nat × String) :=
  if cnt o.2 = 1 then fun q => if q = o.2 then some o else m q else m

/-- The dict `_unique_tool_registry`: a bare name is registered if and
only if the build loop sees it with a global count of exactly 1. -/
def uniqueToolRegistry (plugins : List Plugin) : String → Option (Nat × String) :=
  (allOps plugins).foldl (uniqStep (nameCount plugins)) (fun _ => none)

/-- The names of the `_namespaced_tools` list, in build order (the list
keeps duplicates: every declared operation appends one entry). -/
def namespacedToolNames (plugins : List Plugin) : List String :=
  (allOps plugins).map fun o => nsName o.1 o.2

theorem uniqFold_sound (cnt : String → Nat) (L : List (Nat × String))
    (m : String → Option (Nat × String)) (q : String) (pr : Nat × String)
    (h : (L.foldl (uniqStep cnt) m) q = some pr) :
    (pr ∈ L ∧ cnt pr.2 = 1 ∧ pr.2 = q) ∨ m q = some pr := by
  induction L generalizing m with
  | nil => exact Or.inr h
  | cons o L ih =>
      rcases ih (uniqStep cnt m o) h with h1 | h1
      · exact Or.inl ⟨List.mem_cons_of_mem _ h1.1, h1.2⟩
      · unfold uniqStep at h1
        by_cases hcnt : cnt o.2 = 1
        · rw [if_pos hcnt] at h1
          by_cases hq : q = o.2
          · rw [if_pos hq] at h1
            obtain rfl : o = pr := Option.some.inj h1
            exact Or.inl ⟨List.mem_cons_self _ _, hcnt, hq.symm⟩
          · rw [if_neg hq] at h1
            exact Or.inr h1
        · rw [if_neg hcnt] at h1
          exact Or.inr h1

theorem uniqFold_untouched (cnt : String → Nat) (L : List (Nat × String))
    (m : String → Option (Nat × String)) (q : String) (h : ∀ o ∈ L, o.2 ≠ q) :
    (L.foldl (uniqStep cnt) m) q = m q := by
  induction L generalizing m with
  | nil => rfl
  | cons o L ih =>
      have hstep : uniqStep cnt m o q = m q := by
        unfold uniqStep
        by_cases hcnt : cnt o.2 = 1
        · rw [if_pos hcnt, if_neg fun h1 => h o (List.mem_cons_self _ _) h1.symm]
        · rw [if_neg hcnt]
      rw [List.foldl_cons, ih (uniqStep cnt m o) fun o1 h1 => h o1 (List.mem_cons_of_mem _ h1),
        hstep]

theorem uniqFold_complete (cnt : String → Nat) (L : List (Nat × String))
    (m : String → Option (Nat × String)) (q : String) (pr : Nat × String)
    (hq : cnt q = 1) (hcount : L.countP (fun o => o.2 == q) = 1)
    (hin : pr ∈ L) (hpr : pr.2 = q) : (L.foldl (uniqStep cnt) m) q = some pr := by
  induction L generalizing m with
  | nil => cases hin
  | cons o L ih =>
      rw [List.countP_cons] at hcount
      by_cases ho : o.2 = q
      · have hL : L.countP (fun o => o.2 == q) = 0 := by
          simp only [ho, beq_self_eq_true, if_pos] at hcount
          omega
        have hnone : ∀ o1 ∈ L, o1.2 ≠ q := by
          intro o1 h1
          have := List.countP_eq_zero.mp hL o1 h1
          simpa using this
        have hpro : pr = o := by
          rcases List.mem_cons.mp hin with h1 | h1
          · exact h1
          · exact absurd hpr (hnone pr h1)
        rw [List.foldl_cons, uniqFold_untouched cnt L _ q hnone]
        unfold uniqStep
        rw [ho, if_pos hq, if_pos rfl, hpro]
      · have hL : L.countP (fun o => o.2 == q) = 1 := by
          simp only [beq_iff_eq, ho, if_neg, ite_false] at hcount
          omega
        have hinL : pr ∈ L := by
          rcases List.mem_cons.mp hin with h1 | h1
          · exact absurd (h1 ▸ hpr) ho
          · exact h1
        rw [List.foldl_cons]
        exact ih (uniqStep cnt m o) hL hinL

/-- C3: a bare operation name is present in the alias table exactly when
its global occurrence count over all plugins is 1, and then it maps to the
unique declaring (unit id, bare name) pair. -/
theorem alias_iff_globally_unique (plugins : List Plugin) (name : String)
    (pr : Nat × String) :
    uniqueToolRegistry plugins name = some pr ↔
      (nameCount plugins name = 1 ∧ pr ∈ allOps plugins ∧ pr.2 = name) := by
  constructor
  · intro h
    rcases uniqFold_sound (nameCount plugins) (allOps plugins) _ name pr h with h1 | h1
    · exact ⟨h1.2.2 ▸ h1.2.1, h1.1, h1.2.2⟩
    · cases h1
  · rintro ⟨hcnt, hin, hpr⟩
    exact uniqFold_complete (nameCount plugins) (allOps plugins) _ name pr hcnt hcnt hin hpr

theorem digitChar_toNat (k : Nat) (h : k < 10) : (Nat.digitChar k).toNat = k + 48 := by
  interval_cases k <;> rfl

theorem digitChar_isDigit (k : Nat) (h : k < 10) : (Nat.digitChar k).isDigit = true := by
  interval_cases k <;> rfl

/-- Accumulator-style decimal parse, a left inverse of the digit encoding
underlying `Nat.repr`. -/
def parseAcc : Nat → List Char → Nat
  | a, [] => a
  | a, c :: cs => parseAcc (10 * a + (c.toNat - 48)) cs

theorem parseAcc_append (a : Nat) (L M : List Char) :
    parseAcc a (L ++ M) = parseAcc (parseAcc a L) M := by
  induction L generalizing a with
  | nil => rfl
  | cons c L ih => exact ih (10 * a + (c.toNat - 48))

theorem toDigitsCore_accum (fuel n : Nat) (ds : List Char) :
    Nat.toDigitsCore 10 fuel n ds = Nat.toDigitsCore 10 fuel n [] ++ ds := by
  induction fuel generalizing n ds with
  | zero => rfl
  | succ f ih =>
      simp only [Nat.toDigitsCore]
      by_cases h10 : n / 10 = 0
      · rw [if_pos h10, if_pos h10]
        rfl
      · rw [if_neg h10, if_neg h10, ih (n / 10) (Nat.digitChar (n % 10) :: ds),
          ih (n / 10) [Nat.digitChar (n % 10)]]
        simp

theorem toDigitsCore_isDigit (fuel n : Nat) (ds : List Char)
    (hds : ∀ c ∈ ds, c.isDigit = true) :
    ∀ c ∈ Nat.toDigitsCore 10 fuel n ds, c.isDigit = true := by
  induction fuel generalizing n ds with
  | zero => exact hds
  | succ f ih =>
      intro c hc
      simp only [Nat.toDigitsCore] at hc
      by_cases h10 : n / 10 = 0
      · rw [if_pos h10] at hc
        rcases List.mem_cons.mp hc with h1 | h1
        · exact h1 ▸ digitChar_isDigit (n % 10) (by omega)
        · exact hds c h1
      · rw [if_neg h10] at hc
        refine ih (n / 10) (Nat.digitChar (n % 10) :: ds) ?_ c hc
        intro c1 hc1
        rcases List.mem_cons.mp hc1 with h1 | h1
        · exact h1 ▸ digitChar_isDigit (n % 10) (by omega)
        · exact hds c1 h1

theorem parseAcc_toDigitsCore (fuel n : Nat) (h : n < fuel) :
    ∀ a, parseAcc a (Nat.toDigitsCore 10 fuel n []) =
      a * 10 ^ (Nat.toDigitsCore 10 fuel n []).length + n := by
  induction fuel generalizing n with
  | zero => omega
  | succ f ih =>
      intro a
      simp only [Nat.toDigitsCore]
      by_cases h10 : n / 10 = 0
      · rw [if_pos h10]
        show 10 * a + ((Nat.digitChar (n % 10)).toNat - 48) =
          a * 10 ^ ([Nat.digitChar (n % 10)]).length + n
        rw [digitChar_toNat (n % 10) (by omega), List.length_singleton, pow_one]
        omega
      · rw [if_neg h10, toDigitsCore_accum f (n / 10) [Nat.digitChar (n % 10)],
          parseAcc_append, ih (n / 10) (by omega) a]
        show 10 * (a * 10 ^ (Nat.toDigitsCore 10 f (n / 10) []).length + n / 10) +
            ((Nat.digitChar (n % 10)).toNat - 48) =
          a * 10 ^ (Nat.toDigitsCore 10 f (n / 10) [] ++ [Nat.digitChar (n % 10)]).length + n
        rw [digitChar_toNat (n % 10) (by omega), List.length_append, List.length_singleton,
          pow_succ, Nat.add_sub_cancel]
        have hdm : 10 * (n / 10) + n % 10 = n := by omega
        calc 10 * (a * 10 ^ (Nat.toDigitsCore 10 f (n / 10) []).length + n / 10) + n % 10
            = a * (10 ^ (Nat.toDigitsCore 10 f (n / 10) []).length * 10) +
                (10 * (n / 10) + n % 10) := by ring
          _ = a * (10 ^ (Nat.toDigitsCore 10 f (n / 10) []).length * 10) + n := by rw [hdm]

theorem repr_data_injective (m n : Nat) (h : (Nat.repr m).data = (Nat.repr n).data) :
    m = n := by
  have hm : (Nat.repr m).data = Nat.toDigitsCore 10 (m + 1) m [] := rfl
  have hn : (Nat.repr n).data = Nat.toDigitsCore 10 (n + 1) n [] := rfl
  have h1 := parseAcc_toDigitsCore (m + 1) m (Nat.lt_succ_self m) 0
  have h2 := parseAcc_toDigitsCore (n + 1) n (Nat.lt_succ_self n) 0
  rw [← hm] at h1
  rw [← hn] at h2
  rw [h] at h1
  rw [h2] at h1
  simpa using h1.symm

theorem repr_data_isDigit (n : Nat) : ∀ c ∈ (Nat.repr n).data, c.isDigit = true := by
  have hn : (Nat.repr n).data = Nat.toDigitsCore 10 (n + 1) n [] := rfl
  rw [hn]
  exact toDigitsCore_isDigit (n + 1) n [] (by intro c hc; cases hc)

theorem digits_sep_split (L1 : List Char) :
    ∀ (L2 M1 M2 : List Char), (∀ c ∈ L1, c.isDigit = true) → (∀ c ∈ L2, c.isDigit = true) →
      L1 ++ '_' :: '_' :: M1 = L2 ++ '_' :: '_' :: M2 → L1 = L2 ∧ M1 = M2 := by
  induction L1 with
  | nil =>
      intro L2 M1 M2 _ h2 h
      cases L2 with
      | nil =>
          simp only [List.nil_append, List.cons.injEq] at h
          exact ⟨rfl, h.2.2⟩
      | cons c L2 =>
          simp only [List.nil_append, List.cons_append, List.cons.injEq] at h
          have hd := h2 c (List.mem_cons_self _ _)
          rw [← h.1] at hd
          cases hd
  | cons c L1 ih =>
      intro L2 M1 M2 h1 h2 h
      cases L2 with
      | nil =>
          simp only [List.cons_append, List.nil_append, List.cons.injEq] at h
          have hd := h1 c (List.mem_cons_self _ _)
          rw [h.1] at hd
          cases hd
      | cons c2 L2 =>
          simp only [List.cons_append, List.cons.injEq] at h
          obtain ⟨hL, hM⟩ := ih L2 M1 M2
            (fun x hx => h1 x (List.mem_cons_of_mem _ hx))
            (fun x hx => h2 x (List.mem_cons_of_mem _ hx)) h.2
          exact ⟨by rw [h.1, hL], hM⟩

theorem nsName_data (c : Nat) (n : String) :
    (nsName c n).data = 'l' :: 'v' :: 'l' :: ((Nat.repr c).data ++ '_' :: '_' :: n.data) := by
  simp only [nsName, String.data_append]
  rw [List.append_assoc, List.append_assoc]
  rfl

/-- The namespaced name determines the unit id and the bare name: the unit
id digits contain no underscore, so the first double underscore after the
`lvl` prefix splits the name unambiguously. -/
theorem nsName_injective (c1 c2 : Nat) (n1 n2 : String) (h : nsName c1 n1 = nsName c2 n2) :
    c1 = c2 ∧ n1 = n2 := by
  have hd := congrArg String.data h
  rw [nsName_data, nsName_data] at hd
  simp only [List.cons.injEq, true_and] at hd
  obtain ⟨hL, hM⟩ := digits_sep_split ((Nat.repr c1).data) ((Nat.repr c2).data) n1.data n2.data
    (repr_data_isDigit c1) (repr_data_isDigit c2) hd
  exact ⟨repr_data_injective c1 c2 hL, String.ext hM⟩

theorem regFold_untouched (L : List (Nat × String)) (m : String → Option (Nat × String))
    (q : String) (h : ∀ o ∈ L, nsName o.1 o.2 ≠ q) : (L.foldl regStep m) q = m q := by
  induction L generalizing m with
  | nil => rfl
  | cons o L ih =>
      have hstep : regStep m o q = m q := by
        unfold regStep
        rw [if_neg fun h1 => h o (List.mem_cons_self _ _) h1.symm]
      rw [List.foldl_cons, ih (regStep m o) fun o1 h1 => h o1 (List.mem_cons_of_mem _ h1),
        hstep]

theorem regFold_lookup (L : List (Nat × String)) (m : String → Option (Nat × String))
    (o : Nat × String) (hin : o ∈ L)
    (huniq : ∀ o2 ∈ L, nsName o2.1 o2.2 = nsName o.1 o.2 → o2 = o) :
    (L.foldl regStep m) (nsName o.1 o.2) = some o := by
  induction L generalizing m with
  | nil => cases hin
  | cons o1 L ih =>
      by_cases hmem : o ∈ L
      · rw [List.foldl_cons]
        exact ih (regStep m o1) hmem fun o2 h2 ho2 => huniq o2 (List.mem_cons_of_mem _ h2) ho2
      · have ho1 : o1 = o := by
          rcases List.mem_cons.mp hin with h1 | h1
          · exact h1.symm
          · exact absurd h1 hmem
        have hnone : ∀ o2 ∈ L, nsName o2.1 o2.2 ≠ nsName o.1 o.2 := by
          intro o2 h2 hq
          exact hmem ((huniq o2 (List.mem_cons_of_mem _ h2) hq) ▸ h2)
        rw [List.foldl_cons, regFold_untouched L _ _ hnone]
        unfold regStep
        rw [ho1, if_pos rfl]

/-- C5: when unit ids are unique and bare names are unique within each
plugin, the generated namespaced names are pairwise distinct across the
whole registry, and the namespaced table maps every declared
(unit id, bare name) pair to its own entry. -/
theorem namespaced_names_unique (plugins : List Plugin)
    (hids : (plugins.map Prod.fst).Nodup) (hnames : ∀ p ∈ plugins, p.2.Nodup) :
    (namespacedToolNames plugins).Nodup ∧
    ∀ o ∈ allOps plugins, toolRegistry plugins (nsName o.1 o.2) = some o := by
  constructor
  · have hops : (allOps plugins).Nodup := by
      rw [allOps, List.nodup_flatMap]
      constructor
      · intro p hp
        exact (hnames p hp).map fun a b hab => (Prod.mk.injEq _ _ _ _).mp hab |>.2
      · have hpw : plugins.Pairwise fun p q => p.1 ≠ q.1 := by
          rw [← List.pairwise_map (R := fun a b => a ≠ b)]
          exact hids
        refine hpw.imp ?_
        intro p q hpq
        rw [Function.onFun, List.disjoint_left]
        rintro ⟨c, nm⟩ hcp hcq
        simp only [List.mem_map] at hcp hcq
        obtain ⟨np, _, hnp⟩ := hcp
        obtain ⟨nq, _, hnq⟩ := hcq
        exact hpq ((Prod.mk.injEq _ _ _ _).mp hnp |>.1 ▸ (Prod.mk.injEq _ _ _ _).mp hnq |>.1 ▸ rfl)
    refine hops.map_on ?_
    intro o1 _ o2 _ h12
    obtain ⟨hc, hn⟩ := nsName_injective o1.1 o2.1 o1.2 o2.2 h12
    exact Prod.ext hc hn
  · intro o ho
    refine regFold_lookup (allOps plugins) _ o ho ?_
    intro o2 _ h2
    obtain ⟨hc, hn⟩ := nsName_injective o2.1 o.1 o2.2 o.2 h2
    exact Prod.ext hc hn

/-- Witness for C5 on two concrete plugins with a shared bare name. -/
theorem namespaced_names_unique_witness :
    (namespacedToolNames [(1, ["check"]), (12, ["check", "probe"])]).Nodup ∧
    ∀ o ∈ allOps [(1, ["check"]), (12, ["check", "probe"])],
      toolRegistry [(1, ["check"]), (12, ["check", "probe"])] (nsName o.1 o.2) = some o :=
  namespaced_names_unique [(1, ["check"]), (12, ["check", "probe"])] (by decide) (by decide)

theorem map_sublist_flatMap {α β : Type} (l : List α) (f : α → List β) (x : α)
    (hx : x ∈ l) : (f x).Sublist (l.flatMap f) := by
  induction l with
  | nil => cases hx
  | cons y l ih =>
      rw [List.flatMap_cons]
      rcases List.mem_cons.mp hx with h1 | h1
      · exact h1 ▸ List.sublist_append_left _ _
      · exact (ih h1).trans (List.sublist_append_right _ _)

/-- C8 counterexample: a plugin declaring the bare name `probe` twice does
not make the registry build fail with a configuration error; the build
silently produces a registry in which the collided namespaced name appears
twice in the tool list, resolves to the duplicated pair, and the bare name
gets no alias. -/
theorem duplicate_bare_names_counterexample :
    namespacedToolNames [(1, ["probe", "probe"])] = ["lvl1__probe", "lvl1__probe"] ∧
    toolRegistry [(1, ["probe", "probe"])] "lvl1__probe" = some (1, "probe") ∧
    uniqueToolRegistry [(1, ["probe", "probe"])] "probe" = none := by decide

/-- C8 amended: the registry build never fails; a plugin declaring a bare
name at least twice silently yields a registry with no alias for that name
and with the collided namespaced name occurring at least twice in the
namespaced tool list. -/
theorem duplicate_bare_names_silent_build (plugins : List Plugin) (c : Nat)
    (ts : List String) (n : String) (hp : (c, ts) ∈ plugins)
    (hdup : 2 ≤ ts.countP (fun t => t == n)) :
    uniqueToolRegistry plugins n = none ∧
    2 ≤ (namespacedToolNames plugins).countP (fun q => q == nsName c n) := by
  have hsub : (ts.map fun t => ((c, t) : Nat × String)).Sublist (allOps plugins) :=
    map_sublist_flatMap plugins (fun p => p.2.map fun nm => (p.1, nm)) (c, ts) hp
  have hcnt : 2 ≤ nameCount plugins n := by
    calc 2 ≤ ts.countP (fun t => t == n) := hdup
      _ = (ts.map fun t => ((c, t) : Nat × String)).countP (fun o => o.2 == n) := by
          rw [List.countP_map]
          rfl
      _ ≤ (allOps plugins).countP (fun o => o.2 == n) := hsub.countP_le _
  constructor
  · cases hres : uniqueToolRegistry plugins n with
    | none => rfl
    | some pr =>
        rcases uniqFold_sound (nameCount plugins) (allOps plugins) _ n pr hres with h1 | h1
        · obtain ⟨_, hone, hn⟩ := h1
          rw [hn] at hone
          omega
        · cases h1
  · calc 2 ≤ ts.countP (fun t => t == n) := hdup
      _ ≤ ts.countP (fun t => nsName c t == nsName c n) := by
          refine List.countP_mono_left ?_
          intro t _ ht
          have : t = n := by simpa using ht
          simp [this]
      _ = (ts.map fun t => ((c, t) : Nat × String)).countP
            (fun o => nsName o.1 o.2 == nsName c n) := by
          rw [List.countP_map]
          rfl
      _ ≤ (allOps plugins).countP (fun o => nsName o.1 o.2 == nsName c n) := hsub.countP_le _
      _ = (namespacedToolNames plugins).countP (fun q => q == nsName c n) := by
          rw [namespacedToolNames, List.countP_map]
          rfl

/-- Witness for C8 amended at the concrete duplicate-declaring plugin. -/
theorem duplicate_bare_names_silent_build_witness :
    uniqueToolRegistry [(1, ["probe", "probe"])] "probe" = none ∧
    2 ≤ (namespacedToolNames [(1, ["probe", "probe"])]).countP
      (fun q => q == nsName 1 "probe") :=
  duplicate_bare_names_silent_build [(1, ["probe", "probe"])] 1 ["probe", "probe"] "probe"
    (by decide) (by decide)

/-- A resource address as decomposed by `urlparse`: scheme, network
location (the authority), and the remaining path/query part. -/
structure RAddr where
  scheme : String
  netloc : String
  rest : String
deriving Repr, DecidableEq

/-- The (scheme, authority) routing key of an address. -/
def RAddr.key (a : RAddr) : String × String := (a.scheme, a.netloc)

/-- A plugin as seen by the resource owner build: its unit id and declared
resource addresses in declaration order. -/
abbrev ResPlugin := Nat × List RAddr

/-- One assignment of the `_build_resource_owner_map` loop, mirroring
`if key in owner and owner[key] != cid: owner[key] = None else:
owner[key] = cid` (`some none` is the ambiguity tombstone `None`). -/
def ownerStep (m : String × String → Option (Option Nat)) (cid : Nat)
    (k : String × String) : String × String → Option (Option Nat) :=
  fun q =>
    if q = k then
      match m k with
      | some v => if v = some cid then some (some cid) else some none
      | none => some (some cid)
    else m q

/-- The automatic pass of `_build_resource_owner_map` over all plugins in
registration order. -/
def resourceOwnerAuto (plugins : List ResPlugin) : String × String → Option (Option Nat) :=
  plugins.foldl (fun m p => p.2.foldl (fun m1 a => ownerStep m1 p.1 a.key) m) (fun _ => none)

/-- The full `_resource_owner` map: the automatic pass followed by the
hardcoded override that forces the key `(vulnmcp, docs)` to challenge 2
for dynamic routing. -/
def resourceOwner (plugins : List ResPlugin) : String × String → Option (Option Nat) :=
  fun q => if q = ("vulnmcp", "docs") then some (some 2) else resourceOwnerAuto plugins q

/-- The flattened (owner, key) assignment sequence of the automatic pass. -/
def ownerAssignments (plugins : List ResPlugin) : List (Nat × (String × String)) :=
  plugins.flatMap fun p => p.2.map fun a => (p.1, a.key)

/-- Fold of owner map assignments over a flattened sequence. -/
def ownerFold (A : List (Nat × (String × String)))
    (m : String × String → Option (Option Nat)) : String × String → Option (Option Nat) :=
  A.foldl (fun m1 e => ownerStep m1 e.1 e.2) m

theorem resourceOwnerAuto_eq_fold (plugins : List ResPlugin) :
    resourceOwnerAuto plugins = ownerFold (ownerAssignments plugins) (fun _ => none) := by
  suffices h : ∀ (ps : List ResPlugin) (m : String × String → Option (Option Nat)),
      ps.foldl (fun m p => p.2.foldl (fun m1 a => ownerStep m1 p.1 a.key) m) m =
        ownerFold (ps.flatMap fun p => p.2.map fun a => (p.1, a.key)) m from
    h plugins _
  intro ps
  induction ps with
  | nil => intro m; rfl
  | cons p ps ih =>
      intro m
      rw [List.foldl_cons, ih, List.flatMap_cons]
      simp only [ownerFold]
      rw [List.foldl_append, List.foldl_map]

theorem ownerFold_absorb (A : List (Nat × (String × String)))
    (m : String × String → Option (Option Nat)) (k : String × String)
    (h : m k = some none) : ownerFold A m k = some none := by
  induction A generalizing m with
  | nil => exact h
  | cons e A ih =>
      refine ih (ownerStep m e.1 e.2) ?_
      unfold ownerStep
      by_cases hq : k = e.2
      · rw [if_pos hq, ← hq, h]
        simp
      · rw [if_neg hq]
        exact h

theorem ownerFold_untouched (A : List (Nat × (String × String)))
    (m : String × String → Option (Option Nat)) (k : String × String)
    (h : ∀ e ∈ A, e.2 ≠ k) : ownerFold A m k = m k := by
  induction A generalizing m with
  | nil => rfl
  | cons e A ih =>
      have hk : ownerStep m e.1 e.2 k = m k := by
        unfold ownerStep
        rw [if_neg fun h1 => h e (List.mem_cons_self _ _) h1.symm]
      rw [ownerFold, List.foldl_cons, ← ownerFold, ih _ fun e1 h1 => h e1 (List.mem_cons_of_mem _ h1), hk]

theorem ownerFold_flip (A : List (Nat × (String × String)))
    (m : String × String → Option (Option Nat)) (k : String × String) (c : Nat)
    (w : Option Nat) (hm : m k = some w) (hw : w ≠ some c) (hc : (c, k) ∈ A) :
    ownerFold A m k = some none := by
  induction A generalizing m w with
  | nil => cases hc
  | cons e A ih =>
      rw [ownerFold, List.foldl_cons, ← ownerFold]
      by_cases he : e.2 = k
      · have hstep : ownerStep m e.1 e.2 k =
            if w = some e.1 then some (some e.1) else some none := by
          unfold ownerStep
          rw [if_pos he.symm, he, hm]
        by_cases hwe : w = some e.1
        · rw [hwe] at hstep
          simp only [if_pos rfl] at hstep
          have hce : (c, k) ∈ A := by
            rcases List.mem_cons.mp hc with h1 | h1
            · exact absurd (by rw [← h1] at hwe; exact hwe ▸ rfl : w = some c) hw
            · exact h1
          exact ih (ownerStep m e.1 e.2) (some e.1) hstep (hwe ▸ hw) hce
        · rw [if_neg hwe] at hstep
          exact ownerFold_absorb A _ k hstep
      · have hstep : ownerStep m e.1 e.2 k = m k := by
          unfold ownerStep
          rw [if_neg fun h1 => he h1.symm]
        have hce : (c, k) ∈ A := by
          rcases List.mem_cons.mp hc with h1 | h1
          · exact absurd (congrArg Prod.snd h1.symm) he
          · exact h1
        exact ih (ownerStep m e.1 e.2) w (hstep.trans hm) hw hce

theorem ownerStep_self (m : String × String → Option (Option Nat)) (c : Nat)
    (k : String × String) :
    ownerStep m c k k = some (some c) ∨ ownerStep m c k k = some none := by
  unfold ownerStep
  rw [if_pos rfl]
  cases hm : m k with
  | none => exact Or.inl rfl
  | some v =>
      show (if v = some c then some (some c) else some none) = some (some c) ∨
        (if v = some c then some (some c) else some none) = some none
      by_cases hv : v = some c
      · rw [if_pos hv]
        exact Or.inl rfl
      · rw [if_neg hv]
        exact Or.inr rfl

theorem ownerFold_two_owners (A : List (Nat × (String × String)))
    (m : String × String → Option (Option Nat)) (k : String × String) (c1 c2 : Nat)
    (h1 : (c1, k) ∈ A) (h2 : (c2, k) ∈ A) (hne : c1 ≠ c2) :
    ownerFold A m k = some none := by
  induction A generalizing m with
  | nil => cases h1
  | cons e A ih =>
      rw [ownerFold, List.foldl_cons, ← ownerFold]
      by_cases hin1 : (c1, k) ∈ A
      · by_cases hin2 : (c2, k) ∈ A
        · exact ih (ownerStep m e.1 e.2) hin1 hin2
        · have he2 : e = (c2, k) := by
            rcases List.mem_cons.mp h2 with hx | hx
            · exact hx.symm
            · exact absurd hx hin2
          rw [he2]
          rcases ownerStep_self m c2 k with hs | hs
          · exact ownerFold_flip A _ k c1 (some c2) hs
              (fun h => hne (Option.some.inj h).symm) hin1
          · exact ownerFold_absorb A _ k hs
      · have he1 : e = (c1, k) := by
          rcases List.mem_cons.mp h1 with hx | hx
          · exact hx.symm
          · exact absurd hx hin1
        have hin2 : (c2, k) ∈ A := by
          rcases List.mem_cons.mp h2 with hx | hx
          · rw [he1] at hx
            exact absurd ((Prod.mk.injEq _ _ _ _).mp hx.symm).1 hne
          · exact hx
        rw [he1]
        rcases ownerStep_self m c1 k with hs | hs
        · exact ownerFold_flip A _ k c2 (some c1) hs
            (fun h => hne (Option.some.inj h)) hin2
        · exact ownerFold_absorb A _ k hs

/-- Routing outcome of the `read_resource` handler: the built-in welcome
text, dispatch to a plugin's `handle_resource_read`, or the not-found
text result. -/
inductive ResourceRoute where
  | welcome
  | dispatched (cid : Nat)
  | notFound
deriving Repr, DecidableEq

/-- The address of the built-in resource `vulnmcp://welcome`. -/
def welcomeAddr : RAddr := { scheme := "vulnmcp", netloc := "welcome", rest := "" }

/-- Mirrors the routing of the `read_resource` handler: welcome first,
then exact full-address match over all plugins in registration order
(first match wins), then the (scheme, authority) owner map, where an
absent key or the ambiguity tombstone falls through to not-found. -/
def readResourceRoute (plugins : List ResPlugin) (uri : RAddr) : ResourceRoute :=
  if uri = welcomeAddr then .welcome
  else
    match plugins.find? (fun p => p.2.contains uri) with
    | some p => .dispatched p.1
    | none =>
        match resourceOwner plugins uri.key with
        | some (some cid) => .dispatched cid
        | _ => .notFound

/-- C4 counterexample: units 1 and 3 both declare resources under the key
(vulnmcp, docs), yet the ownership map does not mark that key ambiguous:
the hardcoded override installed after the automatic pass forces it to
unit 2. -/
theorem resource_ambiguity_counterexample :
    resourceOwner
      [(1, [{ scheme := "vulnmcp", netloc := "docs", rest := "/a" }]),
       (3, [{ scheme := "vulnmcp", netloc := "docs", rest := "/b" }])]
      ("vulnmcp", "docs") = some (some 2) := by decide

/-- C4 amended: for two distinct plugins declaring resources under the
same (scheme, authority) key, the ownership map marks the key ambiguous
unless the key is (vulnmcp, docs), which the final hardcoded override
always assigns to unit 2; an address exactly matching the declared
resource list of exactly one plugin is dispatched to that plugin; and an
address whose key is ambiguous and which matches no declared resource
yields the not-found result without raising. -/
theorem resource_ownership_routing (plugins : List ResPlugin) :
    (∀ c1 c2 r1 r2 k, (c1, r1) ∈ plugins → (c2, r2) ∈ plugins → c1 ≠ c2 →
       (∃ a ∈ r1, RAddr.key a = k) → (∃ a ∈ r2, RAddr.key a = k) →
       k ≠ ("vulnmcp", "docs") → resourceOwner plugins k = some none) ∧
    (∀ uri c rs, (c, rs) ∈ plugins → uri ∈ rs → uri ≠ welcomeAddr →
       (∀ p ∈ plugins, uri ∈ p.2 → p.1 = c) →
       readResourceRoute plugins uri = .dispatched c) ∧
    (∀ uri, resourceOwner plugins uri.key = some none → uri ≠ welcomeAddr →
       (∀ p ∈ plugins, uri ∉ p.2) → readResourceRoute plugins uri = .notFound) := by
  refine ⟨?_, ?_, ?_⟩
  · rintro c1 c2 r1 r2 k h1 h2 hne ⟨a1, ha1, hk1⟩ ⟨a2, ha2, hk2⟩ hdocs
    have hm1 : (c1, k) ∈ ownerAssignments plugins := by
      rw [ownerAssignments, List.mem_flatMap]
      exact ⟨(c1, r1), h1, by simpa using ⟨a1, ha1, hk1⟩⟩
    have hm2 : (c2, k) ∈ ownerAssignments plugins := by
      rw [ownerAssignments, List.mem_flatMap]
      exact ⟨(c2, r2), h2, by simpa using ⟨a2, ha2, hk2⟩⟩
    rw [resourceOwner]
    rw [if_neg hdocs, resourceOwnerAuto_eq_fold]
    exact ownerFold_two_owners _ _ k c1 c2 hm1 hm2 hne
  · intro uri c rs hin huri hwel huniq
    rw [readResourceRoute, if_neg hwel]
    cases hf : plugins.find? (fun p => p.2.contains uri) with
    | none =>
        have hnone := List.find?_eq_none.mp hf (c, rs) hin
        simp at hnone
        exact absurd huri hnone
    | some p =>
        have hp := List.find?_some hf
        have hpm := List.mem_of_find?_eq_some hf
        have hpc : p.1 = c := huniq p hpm (by simpa using hp)
        show ResourceRoute.dispatched p.1 = ResourceRoute.dispatched c
        rw [hpc]
  · intro uri hamb hwel hnone
    rw [readResourceRoute, if_neg hwel]
    have hf : plugins.find? (fun p => p.2.contains uri) = none := by
      rw [List.find?_eq_none]
      intro p hp
      simpa using hnone p hp
    rw [hf, hamb]

/-- Witness for C4 amended: two plugins sharing the key (vulnmcp, lvl1);
the key is ambiguous, an exact address dispatches, a non-declared address
under the shared key is not found. -/
theorem resource_ownership_routing_witness :
    resourceOwner
      [(1, [{ scheme := "vulnmcp", netloc := "lvl1", rest := "/a" }]),
       (3, [{ scheme := "vulnmcp", netloc := "lvl1", rest := "/b" }])]
      ("vulnmcp", "lvl1") = some none ∧
    readResourceRoute
      [(1, [{ scheme := "vulnmcp", netloc := "lvl1", rest := "/a" }]),
       (3, [{ scheme := "vulnmcp", netloc := "lvl1", rest := "/b" }])]
      { scheme := "vulnmcp", netloc := "lvl1", rest := "/b" } = .dispatched 3 ∧
    readResourceRoute
      [(1, [{ scheme := "vulnmcp", netloc := "lvl1", rest := "/a" }]),
       (3, [{ scheme := "vulnmcp", netloc := "lvl1", rest := "/b" }])]
      { scheme := "vulnmcp", netloc := "lvl1", rest := "/c" } = .notFound := by
  have h := resource_ownership_routing
    [(1, [{ scheme := "vulnmcp", netloc := "lvl1", rest := "/a" }]),
     (3, [{ scheme := "vulnmcp", netloc := "lvl1", rest := "/b" }])]
  obtain ⟨hamb, hexact, hnf⟩ := h
  have h1 := hamb 1 3 [{ scheme := "vulnmcp", netloc := "lvl1", rest := "/a" }]
    [{ scheme := "vulnmcp", netloc := "lvl1", rest := "/b" }] ("vulnmcp", "lvl1")
    (by decide) (by decide) (by decide) (by decide) (by decide) (by decide)
  refine ⟨h1, ?_, ?_⟩
  · exact hexact { scheme := "vulnmcp", netloc := "lvl1", rest := "/b" } 3
      [{ scheme := "vulnmcp", netloc := "lvl1", rest := "/b" }]
      (by decide) (by decide) (by decide) (by decide)
  · refine hnf { scheme := "vulnmcp", netloc := "lvl1", rest := "/c" } ?_ (by decide) (by decide)
    exact h1

/-- Mirrors the `Hint` dataclass of `base.py`. -/
structure Hint where
  level : Nat
  text : String
  points_cost : Int
deriving Repr, DecidableEq

/-- Python list indexing `xs[i]`: negative indices wrap around once from
the end; `none` models `IndexError`. -/
def pyIndex {α : Type} (xs : List α) (i : Int) : Option α :=
  let j := if i < 0 then i + xs.length else i
  if 0 ≤ j then xs[j.toNat]? else none

/-- Mirrors `BaseChallenge.get_hint`: when `level <= len(hints)` the
`hints_used` counter is incremented and `hints[level - 1]` is returned
(Python indexing, so level 0 reads index -1); otherwise `None` is
returned and the counter is untouched.  The outer `none` models an
`IndexError` escaping after the increment, which happens only for levels
so negative that even the wraparound is out of range. -/
def get_hint (hints : List Hint) (hints_used : Nat) (level : Int) :
    Option (Option Hint) × Nat :=
  if level ≤ (hints.length : Int) then
    match pyIndex hints (level - 1) with
    | some h => (some (some h), hints_used + 1)
    | none => (none, hints_used + 1)
  else (some none, hints_used)

/-- Reply of the server `_get_hint` handler for a valid challenge id:
reveal the hint text, report an invalid hint level, or (when `get_hint`
raises) the error text produced by the `call_tool` exception handler. -/
inductive HintReply where
  | revealed (text : String)
  | invalidLevel
  | errorText
deriving Repr, DecidableEq

/-- Mirrors `VulnMCPServer._get_hint` on a valid challenge id: `None` from
`get_hint` becomes the invalid-level reply, a hint is revealed, and an
escaping exception is converted to an error text by `call_tool`. -/
def serverHintReply (hints : List Hint) (hints_used : Nat) (level : Int) :
    HintReply × Nat :=
  match get_hint hints hints_used level with
  | (some (some h), used1) => (.revealed h.text, used1)
  | (some none, used1) => (.invalidLevel, used1)
  | (none, used1) => (.errorText, used1)

theorem pyIndex_zero_sub_one (hints : List Hint) (hne : hints ≠ []) :
    pyIndex hints (0 - 1) = some (hints.getLast hne) := by
  have hlen : 1 ≤ hints.length := List.length_pos.mpr hne
  simp only [pyIndex]
  rw [if_pos (show (0 - 1 : Int) < 0 by omega)]
  rw [if_pos (show (0 : Int) ≤ 0 - 1 + hints.length by omega)]
  have ht : ((0 : Int) - 1 + hints.length).toNat = hints.length - 1 := by omega
  rw [ht, List.getElem?_eq_getElem (by omega), List.getLast_eq_getElem]

/-- C10: for a nonempty hint list, hint level 0 is not rejected: it
returns the last hint of the list and increments the hints-used counter,
and the server reports an invalid hint level exactly for levels strictly
greater than the number of hints. -/
theorem hint_level_zero_not_invalid (hints : List Hint) (used : Nat) (hne : hints ≠ []) :
    get_hint hints used 0 = (some (some (hints.getLast hne)), used + 1) ∧
    (serverHintReply hints used 0).1 = .revealed (hints.getLast hne).text ∧
    ∀ level : Int, ((serverHintReply hints used level).1 = .invalidLevel ↔
      (hints.length : Int) < level) := by
  have hlen : 1 ≤ hints.length := List.length_pos.mpr hne
  have hzero : get_hint hints used 0 = (some (some (hints.getLast hne)), used + 1) := by
    rw [get_hint, if_pos (by omega), pyIndex_zero_sub_one hints hne]
  refine ⟨hzero, ?_, ?_⟩
  · rw [serverHintReply, hzero]
  · intro level
    by_cases hlev : level ≤ (hints.length : Int)
    · rw [serverHintReply, get_hint, if_pos hlev]
      cases hpi : pyIndex hints (level - 1) with
      | none =>
          constructor
          · intro h
            cases h
          · intro h
            omega
      | some h1 =>
          constructor
          · intro h
            cases h
          · intro h
            omega
    · rw [serverHintReply, get_hint, if_neg hlev]
      exact ⟨fun _ => by omega, fun _ => rfl⟩

/-- Witness for C10 on a concrete two-hint challenge. -/
theorem hint_level_zero_not_invalid_witness :
    get_hint [{ level := 1, text := "alpha", points_cost := 10 },
              { level := 2, text := "beta", points_cost := 10 }] 0 0 =
      (some (some { level := 2, text := "beta", points_cost := 10 }), 1) ∧
    (serverHintReply [{ level := 1, text := "alpha", points_cost := 10 },
                      { level := 2, text := "beta", points_cost := 10 }] 0 0).1 =
      .revealed "beta" ∧
    ∀ level : Int,
      ((serverHintReply [{ level := 1, text := "alpha", points_cost := 10 },
                         { level := 2, text := "beta", points_cost := 10 }] 0 level).1 =
          .invalidLevel ↔ (2 : Int) < level) :=
  hint_level_zero_not_invalid
    [{ level := 1, text := "alpha", points_cost := 10 },
     { level := 2, text := "beta", points_cost := 10 }] 0 (by decide)

end VulnMCP
